import Mathlib

/-!
Verification of the voice_bat command-line utility (src/app.py).

The program is a thin orchestration layer: `convert_mode` transcribes one
audio file and overwrites an output text file with the result;
`listen_mode` loops forever, capturing one audio segment per iteration,
persisting it to a fresh temporary WAV file, transcribing that file,
appending the text plus a newline to the output file, and deleting the
temporary file, until a KeyboardInterrupt is caught.

We embed the file-system state as an association list from paths to file
contents, the Whisper transcription engine as an opaque function from the
audio data to `Except String String` (errors model Python exceptions such
as a missing input file), and the two modes as pure functions over that
state.  The listen loop is embedded twice: as a recursive function
(`listen_loop`) computing the final state of a session, and as a
small-step machine (`step`) exposing the intermediate states inside an
iteration, used for the resource and ordering invariants.
-/

/-- File-system contents: an association list from paths to file contents. -/
def lookupF : List (String × String) → String → Option String
  | [], _ => none
  | (q, w) :: rest, p => if q = p then some w else lookupF rest p

/-- Set a path to a value, replacing an existing entry in place. -/
def setF : List (String × String) → String → String → List (String × String)
  | [], p, v => [(p, v)]
  | (q, w) :: rest, p, v => if q = p then (p, v) :: rest else (q, w) :: setF rest p v

/-- Remove a path. -/
def removeF : List (String × String) → String → List (String × String)
  | [], _ => []
  | (q, w) :: rest, p => if q = p then removeF rest p else (q, w) :: removeF rest p

/-- The file system visible to the program. -/
structure FS where
  files : List (String × String)
deriving DecidableEq

/-- Contents of the file at path `p`, if it exists. -/
def FS.read (fs : FS) (p : String) : Option String :=
  lookupF fs.files p

/-- Models `open(p, "w")` followed by `write(v)`: truncating write, creates the file. -/
def FS.writeTrunc (fs : FS) (p v : String) : FS :=
  ⟨setF fs.files p v⟩

/-- Models `open(p, "a")` followed by `write(s)`: appending write, creates the file. -/
def FS.append (fs : FS) (p s : String) : FS :=
  fs.writeTrunc p (((fs.read p).getD "") ++ s)

/-- Models `os.remove(p)` (the program only calls it on files it just created). -/
def FS.remove (fs : FS) (p : String) : FS :=
  ⟨removeF fs.files p⟩

@[simp] theorem lookupF_setF_self (l : List (String × String)) (p v : String) :
    lookupF (setF l p v) p = some v := by
  induction l with
  | nil => simp [lookupF, setF]
  | cons e rest ih =>
    obtain ⟨q, w⟩ := e
    by_cases h : q = p
    · simp [lookupF, setF, h]
    · simp [lookupF, setF, h, ih]

@[simp] theorem lookupF_setF_other (l : List (String × String)) (p q v : String)
    (h : q ≠ p) : lookupF (setF l p v) q = lookupF l q := by
  induction l with
  | nil => simp [lookupF, setF, Ne.symm h]
  | cons e rest ih =>
    obtain ⟨r, w⟩ := e
    by_cases hr : r = p
    · subst hr
      simp [lookupF, setF, Ne.symm h]
    · simp only [setF, if_neg hr, lookupF]
      by_cases hq : r = q <;> simp [hq, ih]

@[simp] theorem lookupF_removeF_self (l : List (String × String)) (p : String) :
    lookupF (removeF l p) p = none := by
  induction l with
  | nil => simp [lookupF, removeF]
  | cons e rest ih =>
    obtain ⟨q, w⟩ := e
    by_cases h : q = p
    · simp [removeF, h, ih]
    · simp [removeF, h, lookupF, ih]

@[simp] theorem lookupF_removeF_other (l : List (String × String)) (p q : String)
    (h : q ≠ p) : lookupF (removeF l p) q = lookupF l q := by
  induction l with
  | nil => simp [removeF]
  | cons e rest ih =>
    obtain ⟨r, w⟩ := e
    by_cases hr : r = p
    · subst hr
      simp [removeF, lookupF, Ne.symm h, ih]
    · simp only [removeF, if_neg hr, lookupF]
      by_cases hq : r = q <;> simp [hq, ih]

@[simp] theorem FS.read_writeTrunc_self (fs : FS) (p v : String) :
    (fs.writeTrunc p v).read p = some v :=
  lookupF_setF_self _ _ _

@[simp] theorem FS.read_writeTrunc_other (fs : FS) (p q v : String) (h : q ≠ p) :
    (fs.writeTrunc p v).read q = fs.read q :=
  lookupF_setF_other _ _ _ _ h

@[simp] theorem FS.read_append_self (fs : FS) (p s : String) :
    (fs.append p s).read p = some (((fs.read p).getD "") ++ s) :=
  lookupF_setF_self _ _ _

@[simp] theorem FS.read_append_other (fs : FS) (p q s : String) (h : q ≠ p) :
    (fs.append p s).read q = fs.read q :=
  lookupF_setF_other _ _ _ _ h

@[simp] theorem FS.read_remove_self (fs : FS) (p : String) :
    (fs.remove p).read p = none :=
  lookupF_removeF_self _ _

@[simp] theorem FS.read_remove_other (fs : FS) (p q : String) (h : q ≠ p) :
    (fs.remove p).read q = fs.read q :=
  lookupF_removeF_other _ _ _ h

/-- Result of one process invocation: its exit code and final file system. -/
structure RunResult where
  exitCode : Nat
  fs : FS
deriving DecidableEq

/-- The function `convert_mode(input_audio_file, output_text_file, model)` from src/app.py:
calls `transcribe_audio` on the input path, then opens the output file with
mode "w" (truncate) and writes exactly the returned text.  A transcription
error (e.g. missing input file) is an uncaught Python exception, modelled by
the `Except.error` branch, reached before the output file is opened. -/
def convert_mode (transcribe : String → Except String String)
    (input_audio_file output_text_file : String) (fs : FS) : Except String FS :=
  match transcribe input_audio_file with
  | .error e => .error e
  | .ok text => .ok (fs.writeTrunc output_text_file text)

/-- The `convert` subcommand at process level: an uncaught exception makes
Python exit with code 1 and leaves the file system untouched. -/
def convert_main (transcribe : String → Except String String)
    (input_audio_file output_text_file : String) (fs : FS) : RunResult :=
  match convert_mode transcribe input_audio_file output_text_file fs with
  | .error _ => ⟨1, fs⟩
  | .ok fs' => ⟨0, fs'⟩

/-- Split a character list into lines: a line is a maximal run of characters
terminated by a newline character or by the end of the data.  `cur` is the
reversed current line being accumulated. -/
def lineListAux : List Char → List Char → List (List Char)
  | cur, [] => if cur = [] then [] else [cur.reverse]
  | cur, c :: cs =>
      if c = '\n' then cur.reverse :: lineListAux [] cs else lineListAux (c :: cur) cs

/-- The lines of a file's contents (an empty file has no lines). -/
def lineList (s : String) : List String :=
  (lineListAux [] s.data).map String.mk

/-- Holds when `t` contains no newline character. -/
def noNewline (t : String) : Prop := '\n' ∉ t.data

instance (t : String) : Decidable (noNewline t) := by
  unfold noNewline; infer_instance

/-- The text appended across iterations: one newline-terminated line per
transcription, in order. -/
def joinLines : List String → String
  | [] => ""
  | t :: ts => t ++ "\n" ++ joinLines ts

theorem lineListAux_newline_free (t : List Char) (hn : '\n' ∉ t) :
    ∀ cur rest, lineListAux cur (t ++ '\n' :: rest) =
      (cur.reverse ++ t) :: lineListAux [] rest := by
  induction t with
  | nil => intro cur rest; simp [lineListAux]
  | cons c t ih =>
    intro cur rest
    have hc : c ≠ '\n' := fun h => hn (h ▸ List.mem_cons_self c t)
    have ht : '\n' ∉ t := fun h => hn (List.mem_cons_of_mem c h)
    have h1 : lineListAux cur ((c :: t) ++ '\n' :: rest) =
        lineListAux (c :: cur) (t ++ '\n' :: rest) := by
      rw [List.cons_append, lineListAux, if_neg hc]
    rw [h1, ih ht]
    simp

theorem lineList_joinLines (ts : List String) (hn : ∀ t ∈ ts, noNewline t) :
    ∀ tail, lineListAux [] ((joinLines ts).data ++ tail) = (ts.map String.data) ++ lineListAux [] tail := by
  induction ts with
  | nil => intro tail; simp [joinLines]
  | cons t ts ih =>
    intro tail
    have hdata : (joinLines (t :: ts)).data = t.data ++ '\n' :: (joinLines ts).data := by
      simp [joinLines, String.data_append]
    rw [hdata, List.append_assoc, List.cons_append,
      lineListAux_newline_free t.data (hn t (List.mem_cons_self t ts)),
      ih (fun u hu => hn u (List.mem_cons_of_mem t hu))]
    simp

/-- For newline-free transcriptions, the file whose contents is the
concatenation of the newline-terminated lines has exactly those lines. -/
theorem lineList_joinLines_eq (ts : List String) (hn : ∀ t ∈ ts, noNewline t) :
    lineList (joinLines ts) = ts := by
  have h := lineList_joinLines ts hn []
  rw [List.append_nil] at h
  have hnil : lineListAux [] ([] : List Char) = [] := rfl
  rw [lineList, h, hnil, List.append_nil, List.map_map]
  have hcomp : (String.mk ∘ String.data) = id := funext fun s => rfl
  rw [hcomp, List.map_id]

/-- The `while True` loop of `listen_mode` from src/app.py, one recursive call per
iteration.  The environment is modelled by `segs`, the audio data of the
segments the microphone will deliver (the wav bytes written to the temporary
file), and `tmpn`, the fresh temporary-file name chosen by
`tempfile.NamedTemporaryFile` at iteration `i`.  Each iteration writes the
segment to the temporary file, transcribes the temporary file's contents,
appends the text plus `"\n"` to the output file, and deletes the temporary
file.  A transcription error is an uncaught exception: the loop stops at once
with the file system as it stands (the temporary file not yet removed).
Exhausting `segs` models the KeyboardInterrupt arriving at the loop boundary:
the loop ends normally with no error. -/
def listen_loop (transcribe : String → Except String String) (tmpn : Nat → String)
    (output_text_file : String) : List String → Nat → FS → FS × Option String
  | [], _, fs => (fs, none)
  | seg :: rest, i, fs =>
    let temp_audio_file := tmpn i
    let fs1 := fs.writeTrunc temp_audio_file seg
    match transcribe ((fs1.read temp_audio_file).getD "") with
    | .error e => (fs1, some e)
    | .ok transcription =>
      listen_loop transcribe tmpn output_text_file rest (i + 1)
        ((fs1.append output_text_file (transcription ++ "\n")).remove temp_audio_file)

/-- The `listen` subcommand at process level: a session delivering `segs` and
then interrupted at the loop boundary.  The KeyboardInterrupt is caught
(exit code 0); any other exception is uncaught (exit code 1). -/
def listen_main (transcribe : String → Except String String) (tmpn : Nat → String)
    (output_text_file : String) (segs : List String) (fs : FS) : RunResult :=
  match listen_loop transcribe tmpn output_text_file segs 0 fs with
  | (fs', none) => ⟨0, fs'⟩
  | (fs', some _) => ⟨1, fs'⟩

/-- Unfolding one successful iteration of the loop. -/
theorem listen_loop_cons_ok (transcribe : String → Except String String)
    (tmpn : Nat → String) (output : String) (seg t : String) (rest : List String)
    (i : Nat) (fs : FS) (h : transcribe seg = .ok t) :
    listen_loop transcribe tmpn output (seg :: rest) i fs =
      listen_loop transcribe tmpn output rest (i + 1)
        (((fs.writeTrunc (tmpn i) seg).append output (t ++ "\n")).remove (tmpn i)) := by
  simp [listen_loop, h]

/-- Unfolding one failing iteration of the loop. -/
theorem listen_loop_cons_err (transcribe : String → Except String String)
    (tmpn : Nat → String) (output : String) (seg e : String) (rest : List String)
    (i : Nat) (fs : FS) (h : transcribe seg = .error e) :
    listen_loop transcribe tmpn output (seg :: rest) i fs =
      (fs.writeTrunc (tmpn i) seg, some e) := by
  simp [listen_loop, h]

/-- Main lemma for successful sessions: the loop ends without error, the
output file gains exactly one newline-terminated line per segment in order,
every other file is untouched, and no temporary file of the session remains. -/
theorem listen_loop_ok (transcribe : String → Except String String)
    (tmpn : Nat → String) (output : String) :
    ∀ (segs ts : List String) (i : Nat) (fs : FS),
      List.Forall₂ (fun seg t => transcribe seg = .ok t) segs ts →
      (∀ k, i ≤ k → k < i + segs.length → tmpn k ≠ output) →
      (listen_loop transcribe tmpn output segs i fs).2 = none ∧
      ((listen_loop transcribe tmpn output segs i fs).1.read output).getD "" =
        ((fs.read output).getD "") ++ joinLines ts ∧
      (∀ p, p ≠ output → (∀ k, i ≤ k → k < i + segs.length → p ≠ tmpn k) →
        (listen_loop transcribe tmpn output segs i fs).1.read p = fs.read p) ∧
      (∀ k, i ≤ k → k < i + segs.length →
        (listen_loop transcribe tmpn output segs i fs).1.read (tmpn k) = none) := by
  intro segs ts i fs hfor
  induction hfor generalizing i fs with
  | nil =>
    intro _
    refine ⟨rfl, ?_, fun p _ _ => rfl, fun k hk1 hk2 => absurd (lt_of_le_of_lt hk1 hk2) ?_⟩
    · simp [listen_loop, joinLines, String.append_empty]
    · simp
  | @cons seg t rest ts' hseg _ ih =>
    intro hout
    simp only [List.length_cons] at hout
    have houti : tmpn i ≠ output := hout i le_rfl (by omega)
    have hout' : ∀ k, i + 1 ≤ k → k < (i + 1) + rest.length → tmpn k ≠ output := by
      intro k hk1 hk2
      exact hout k (by omega) (by omega)
    set fs3 := ((fs.writeTrunc (tmpn i) seg).append output (t ++ "\n")).remove (tmpn i) with hfs3
    have hunfold := listen_loop_cons_ok transcribe tmpn output seg t rest i fs hseg
    obtain ⟨iherr, ihcontent, ihframe, ihtemp⟩ := ih (i + 1) fs3 hout'
    have hcontent3 : (fs3.read output).getD "" = ((fs.read output).getD "") ++ t ++ "\n" := by
      rw [hfs3]
      rw [FS.read_remove_other _ _ _ (Ne.symm houti), FS.read_append_self,
        FS.read_writeTrunc_other _ _ _ _ (Ne.symm houti)]
      simp [String.append_assoc]
    refine ⟨?_, ?_, ?_, ?_⟩
    · rw [hunfold]; exact iherr
    · rw [hunfold, ihcontent, hcontent3, joinLines]
      simp [String.append_assoc]
    · intro p hp hptmp
      simp only [List.length_cons] at hptmp
      rw [hunfold, ihframe p hp (fun k hk1 hk2 => hptmp k (by omega) (by omega))]
      have hpi : p ≠ tmpn i := hptmp i le_rfl (by omega)
      rw [hfs3, FS.read_remove_other _ _ _ hpi, FS.read_append_other _ _ _ _ hp,
        FS.read_writeTrunc_other _ _ _ _ hpi]
    · intro k hk1 hk2
      simp only [List.length_cons] at hk2
      rcases Nat.eq_or_lt_of_le hk1 with rfl | hik
      · by_cases hcoll : ∀ j, i + 1 ≤ j → j < (i + 1) + rest.length → tmpn i ≠ tmpn j
        · rw [hunfold, ihframe (tmpn i) (hout i le_rfl (by omega)) hcoll]
          rw [hfs3, FS.read_remove_self]
        · push_neg at hcoll
          obtain ⟨j, hj1, hj2, hj3⟩ := hcoll
          have hj := ihtemp j hj1 hj2
          rw [← hj3] at hj
          rw [hunfold, ← hfs3]
          exact hj
      · rw [hunfold]
        exact ihtemp k hik (by omega)

/-- Main lemma for failing sessions: if every segment before `bad` transcribes
successfully and `bad` raises, the loop stops with that error, the output file
holds exactly the lines of the completed iterations, the remaining segments
are never processed, and the failing iteration's temporary file is left
behind. -/
theorem listen_loop_err (transcribe : String → Except String String)
    (tmpn : Nat → String) (output : String) (bad e : String) (rest : List String)
    (hbad : transcribe bad = .error e) :
    ∀ (done ts : List String) (i : Nat) (fs : FS),
      List.Forall₂ (fun seg t => transcribe seg = .ok t) done ts →
      (∀ k, i ≤ k → k ≤ i + done.length → tmpn k ≠ output) →
      (listen_loop transcribe tmpn output (done ++ bad :: rest) i fs).2 = some e ∧
      ((listen_loop transcribe tmpn output (done ++ bad :: rest) i fs).1.read output).getD "" =
        ((fs.read output).getD "") ++ joinLines ts ∧
      (listen_loop transcribe tmpn output (done ++ bad :: rest) i fs).1.read
        (tmpn (i + done.length)) = some bad := by
  intro done ts i fs hfor
  induction hfor generalizing i fs with
  | nil =>
    intro hout
    have houti : tmpn i ≠ output := hout i le_rfl (by omega)
    have hunfold := listen_loop_cons_err transcribe tmpn output bad e rest i fs hbad
    simp only [List.nil_append] at *
    refine ⟨by rw [hunfold], ?_, ?_⟩
    · rw [hunfold, FS.read_writeTrunc_other _ _ _ _ (Ne.symm houti)]
      simp [joinLines, String.append_empty]
    · rw [hunfold]
      simp
  | @cons seg t done' ts' hseg _ ih =>
    intro hout
    simp only [List.length_cons] at hout
    have houti : tmpn i ≠ output := hout i le_rfl (by omega)
    have hout' : ∀ k, i + 1 ≤ k → k ≤ (i + 1) + done'.length → tmpn k ≠ output := by
      intro k hk1 hk2
      exact hout k (by omega) (by omega)
    set fs3 := ((fs.writeTrunc (tmpn i) seg).append output (t ++ "\n")).remove (tmpn i) with hfs3
    have hunfold := listen_loop_cons_ok transcribe tmpn output seg t (done' ++ bad :: rest) i fs hseg
    obtain ⟨iherr, ihcontent, ihtemp⟩ := ih (i + 1) fs3 hout'
    have hcontent3 : (fs3.read output).getD "" = ((fs.read output).getD "") ++ t ++ "\n" := by
      rw [hfs3]
      rw [FS.read_remove_other _ _ _ (Ne.symm houti), FS.read_append_self,
        FS.read_writeTrunc_other _ _ _ _ (Ne.symm houti)]
      simp [String.append_assoc]
    have hidx : i + (done'.length + 1) = (i + 1) + done'.length := by omega
    refine ⟨?_, ?_, ?_⟩
    · rw [List.cons_append, hunfold]; exact iherr
    · rw [List.cons_append, hunfold, ihcontent, hcontent3, joinLines]
      simp [String.append_assoc]
    · rw [List.cons_append, hunfold, List.length_cons, hidx]
      exact ihtemp

/-- Elements on the right of a `Forall₂` relation inherit any property implied
by the relation. -/
theorem forall₂_right_mem {α β : Type} {R : α → β → Prop} {P : β → Prop}
    (h : ∀ a b, R a b → P b) :
    ∀ {l₁ : List α} {l₂ : List β}, List.Forall₂ R l₁ l₂ → ∀ b ∈ l₂, P b := by
  intro l₁ l₂ hfor
  induction hfor with
  | nil => intro b hb; cases hb
  | cons hab _ ih =>
    intro b hb
    rcases List.mem_cons.mp hb with rfl | hb
    · exact h _ _ hab
    · exact ih b hb

/-- C1: for every input on which the engine succeeds, convert mode writes the
output file so that it contains exactly the engine's returned text (no added
newline), discarding any prior contents, and a second run of convert on the
same input leaves the output file with identical contents. -/
theorem convert_exact_idempotent
    (transcribe : String → Except String String) (input output t : String) (fs : FS)
    (h : transcribe input = .ok t) :
    ∃ fs', convert_mode transcribe input output fs = .ok fs' ∧
      fs'.read output = some t ∧
      ∃ fs2, convert_mode transcribe input output fs' = .ok fs2 ∧
        fs2.read output = fs'.read output := by
  refine ⟨fs.writeTrunc output t, by simp [convert_mode, h], by simp, ?_⟩
  exact ⟨(fs.writeTrunc output t).writeTrunc output t, by simp [convert_mode, h], by simp⟩

theorem convert_exact_idempotent_witness :
    ∃ fs', convert_mode (fun _ => .ok "hello") "in.wav" "out.txt" ⟨[("out.txt", "old")]⟩ =
        .ok fs' ∧
      fs'.read "out.txt" = some "hello" ∧
      ∃ fs2, convert_mode (fun _ => .ok "hello") "in.wav" "out.txt" fs' = .ok fs2 ∧
        fs2.read "out.txt" = fs'.read "out.txt" :=
  convert_exact_idempotent (fun _ => .ok "hello") "in.wav" "out.txt" "hello"
    ⟨[("out.txt", "old")]⟩ rfl

/-- C4: when reading the input audio file or the engine call fails in convert
mode, the process exits with a non-zero code and the whole file system — in
particular the output text file — is neither created nor modified. -/
theorem convert_error_exits_nonzero_no_output
    (transcribe : String → Except String String) (input output e : String) (fs : FS)
    (h : transcribe input = .error e) :
    (convert_main transcribe input output fs).exitCode ≠ 0 ∧
    (convert_main transcribe input output fs).fs = fs := by
  simp [convert_main, convert_mode, h]

theorem convert_error_exits_nonzero_no_output_witness :
    (convert_main (fun _ => .error "FileNotFoundError") "missing.wav" "out.txt"
        ⟨[]⟩).exitCode ≠ 0 ∧
    (convert_main (fun _ => .error "FileNotFoundError") "missing.wav" "out.txt" ⟨[]⟩).fs =
      ⟨[]⟩ :=
  convert_error_exits_nonzero_no_output (fun _ => .error "FileNotFoundError")
    "missing.wav" "out.txt" "FileNotFoundError" ⟨[]⟩ rfl

/-- C7: when the engine returns the empty string, convert mode writes an empty
output file, and one listen-mode iteration appends exactly a lone newline. -/
theorem empty_transcription_empty_line
    (transcribe : String → Except String String) (tmpn : Nat → String)
    (input output seg : String) (fs : FS)
    (hin : transcribe input = .ok "") (hseg : transcribe seg = .ok "")
    (htmp : tmpn 0 ≠ output) :
    (∃ fs', convert_mode transcribe input output fs = .ok fs' ∧
      fs'.read output = some "") ∧
    ((listen_loop transcribe tmpn output [seg] 0 fs).1.read output).getD "" =
      ((fs.read output).getD "") ++ "\n" := by
  constructor
  · exact ⟨fs.writeTrunc output "", by simp [convert_mode, hin], by simp⟩
  · have hout : ∀ k, 0 ≤ k → k < 0 + [seg].length → tmpn k ≠ output := by
      intro k _ hk
      simp only [List.length_cons, List.length_nil] at hk
      have : k = 0 := by omega
      rw [this]; exact htmp
    obtain ⟨_, h2, _, _⟩ := listen_loop_ok transcribe tmpn output [seg] [""] 0 fs
      (List.Forall₂.cons hseg List.Forall₂.nil) hout
    rw [h2]
    simp [joinLines, String.append_empty, String.empty_append]

theorem empty_transcription_empty_line_witness :
    (∃ fs', convert_mode (fun _ => .ok "") "silence.wav" "out.txt" ⟨[]⟩ = .ok fs' ∧
      fs'.read "out.txt" = some "") ∧
    ((listen_loop (fun _ => .ok "") (fun i => "tmp" ++ toString i) "out.txt" ["seg"] 0
        ⟨[]⟩).1.read "out.txt").getD "" = (((⟨[]⟩ : FS).read "out.txt").getD "") ++ "\n" :=
  empty_transcription_empty_line (fun _ => .ok "") (fun i => "tmp" ++ toString i)
    "silence.wav" "out.txt" "seg" ⟨[]⟩ rfl rfl (by decide)

/-- C2 counterexample: a single captured segment whose transcription contains
an embedded newline, appended to an already-existing output file.  The file
ends the session with two lines, not one, and no line equals the engine's
output for the segment, refuting the claim as stated. -/
theorem listen_line_per_segment_counterexample :
    (lineList (((listen_loop (fun _ => Except.ok "a\nb") (fun i => "tmp" ++ toString i)
      "out.txt" ["seg"] 0 ⟨[("out.txt", "x")]⟩).1.read "out.txt").getD "")).length = 2 ∧
    lineList (((listen_loop (fun _ => Except.ok "a\nb") (fun i => "tmp" ++ toString i)
      "out.txt" ["seg"] 0 ⟨[("out.txt", "x")]⟩).1.read "out.txt").getD "") ≠ ["a\nb"] := by
  decide

/-- C2 amended: provided the output file is initially absent and every
transcription is newline-free, a session of N captured segments leaves the
output file with exactly N lines, the i-th line being the engine's output for
the i-th segment, in capture order. -/
theorem listen_line_per_segment
    (transcribe : String → Except String String) (tmpn : Nat → String)
    (output : String) (segs ts : List String) (fs : FS)
    (hfor : List.Forall₂ (fun seg t => transcribe seg = .ok t ∧ noNewline t) segs ts)
    (hout : ∀ k < segs.length, tmpn k ≠ output)
    (hinit : fs.read output = none) :
    (listen_loop transcribe tmpn output segs 0 fs).2 = none ∧
    lineList (((listen_loop transcribe tmpn output segs 0 fs).1.read output).getD "") = ts ∧
    (lineList (((listen_loop transcribe tmpn output segs 0 fs).1.read output).getD "")).length =
      segs.length := by
  have hfor' : List.Forall₂ (fun seg t => transcribe seg = .ok t) segs ts :=
    hfor.imp (fun _ _ h => h.1)
  have hnl : ∀ t ∈ ts, noNewline t :=
    forall₂_right_mem (fun _ _ h => h.2) hfor
  obtain ⟨h1, h2, _, _⟩ := listen_loop_ok transcribe tmpn output segs ts 0 fs hfor'
    (fun k _ hk2 => hout k (by omega))
  rw [hinit] at h2
  simp only [Option.getD_none, String.empty_append] at h2
  refine ⟨h1, ?_, ?_⟩
  · rw [h2, lineList_joinLines_eq ts hnl]
  · rw [h2, lineList_joinLines_eq ts hnl, hfor.length_eq]

theorem listen_line_per_segment_witness :
    (listen_loop (fun s => if s = "s1" then .ok "hello" else .ok "world")
      (fun i => "tmp" ++ toString i) "out.txt" ["s1", "s2"] 0 ⟨[]⟩).2 = none ∧
    lineList (((listen_loop (fun s => if s = "s1" then .ok "hello" else .ok "world")
      (fun i => "tmp" ++ toString i) "out.txt" ["s1", "s2"] 0
        ⟨[]⟩).1.read "out.txt").getD "") = ["hello", "world"] ∧
    (lineList (((listen_loop (fun s => if s = "s1" then .ok "hello" else .ok "world")
      (fun i => "tmp" ++ toString i) "out.txt" ["s1", "s2"] 0
        ⟨[]⟩).1.read "out.txt").getD "")).length = ["s1", "s2"].length :=
  listen_line_per_segment (fun s => if s = "s1" then .ok "hello" else .ok "world")
    (fun i => "tmp" ++ toString i) "out.txt" ["s1", "s2"] ["hello", "world"] ⟨[]⟩
    (List.Forall₂.cons ⟨rfl, by decide⟩
      (List.Forall₂.cons ⟨rfl, by decide⟩ List.Forall₂.nil))
    (by decide) rfl

/-- C3 counterexample: when the transcription of an iteration fails, the code
never reaches `os.remove`, so the temporary audio file of that iteration
remains on the file system, refuting unconditional deletion. -/
theorem temp_deleted_unconditionally_counterexample :
    (listen_loop (fun _ => Except.error "RuntimeError") (fun i => "tmp" ++ toString i)
      "out.txt" ["seg"] 0 ⟨[]⟩).2 = some "RuntimeError" ∧
    (listen_loop (fun _ => Except.error "RuntimeError") (fun i => "tmp" ++ toString i)
      "out.txt" ["seg"] 0 ⟨[]⟩).1.read "tmp0" = some "seg" := by
  decide

/-- C3 amended: the temporary file of an iteration is deleted only when that
iteration's transcription and append both succeed; after a session in which
every transcription succeeds, no temporary audio file of any iteration remains
on the file system (on a failing iteration the temporary file is left behind,
as the counterexample shows). -/
theorem temp_deleted_on_success
    (transcribe : String → Except String String) (tmpn : Nat → String)
    (output : String) (segs ts : List String) (fs : FS) (k : Nat)
    (hfor : List.Forall₂ (fun seg t => transcribe seg = .ok t) segs ts)
    (hout : ∀ j < segs.length, tmpn j ≠ output)
    (hk : k < segs.length) :
    (listen_loop transcribe tmpn output segs 0 fs).1.read (tmpn k) = none := by
  obtain ⟨_, _, _, h4⟩ := listen_loop_ok transcribe tmpn output segs ts 0 fs hfor
    (fun j _ hj2 => hout j (by omega))
  exact h4 k (Nat.zero_le k) (by omega)

theorem temp_deleted_on_success_witness :
    (listen_loop (fun _ => .ok "hi") (fun i => "tmp" ++ toString i) "out.txt"
      ["s1", "s2"] 0 ⟨[]⟩).1.read ((fun i => "tmp" ++ toString i) 1) = none :=
  temp_deleted_on_success (fun _ => .ok "hi") (fun i => "tmp" ++ toString i) "out.txt"
    ["s1", "s2"] ["hi", "hi"] ⟨[]⟩ 1
    (List.Forall₂.cons rfl (List.Forall₂.cons rfl List.Forall₂.nil))
    (by decide) (by decide)

/-- C6: a listen session whose captured segments all complete and which is
then interrupted at the loop boundary: the KeyboardInterrupt is caught, the
process exits with code 0, the output file holds exactly the lines appended by
the completed iterations, and every other file is untouched. -/
theorem listen_interrupt_graceful
    (transcribe : String → Except String String) (tmpn : Nat → String)
    (output : String) (segs ts : List String) (fs : FS)
    (hfor : List.Forall₂ (fun seg t => transcribe seg = .ok t) segs ts)
    (hout : ∀ k < segs.length, tmpn k ≠ output) :
    (listen_main transcribe tmpn output segs fs).exitCode = 0 ∧
    ((listen_main transcribe tmpn output segs fs).fs.read output).getD "" =
      ((fs.read output).getD "") ++ joinLines ts ∧
    (∀ p, p ≠ output → (∀ k < segs.length, p ≠ tmpn k) →
      (listen_main transcribe tmpn output segs fs).fs.read p = fs.read p) := by
  obtain ⟨h1, h2, h3, _⟩ := listen_loop_ok transcribe tmpn output segs ts 0 fs hfor
    (fun k _ hk2 => hout k (by omega))
  rcases hr : listen_loop transcribe tmpn output segs 0 fs with ⟨fs', err⟩
  rw [hr] at h1 h2 h3
  simp only at h1
  subst h1
  simp only [listen_main, hr]
  exact ⟨trivial, h2, fun p hp hptmp => h3 p hp (fun k _ hk2 => hptmp k (by omega))⟩

theorem listen_interrupt_graceful_witness :
    (listen_main (fun _ => .ok "hi") (fun i => "tmp" ++ toString i) "out.txt"
      ["s1", "s2"] ⟨[]⟩).exitCode = 0 ∧
    ((listen_main (fun _ => .ok "hi") (fun i => "tmp" ++ toString i) "out.txt"
      ["s1", "s2"] ⟨[]⟩).fs.read "out.txt").getD "" =
      ((((⟨[]⟩ : FS)).read "out.txt").getD "") ++ joinLines ["hi", "hi"] ∧
    (∀ p, p ≠ "out.txt" → (∀ k < (["s1", "s2"] : List String).length,
        p ≠ (fun i => "tmp" ++ toString i) k) →
      (listen_main (fun _ => .ok "hi") (fun i => "tmp" ++ toString i) "out.txt"
        ["s1", "s2"] ⟨[]⟩).fs.read p = (⟨[]⟩ : FS).read p) :=
  listen_interrupt_graceful (fun _ => .ok "hi") (fun i => "tmp" ++ toString i) "out.txt"
    ["s1", "s2"] ["hi", "hi"] ⟨[]⟩
    (List.Forall₂.cons rfl (List.Forall₂.cons rfl List.Forall₂.nil)) (by decide)

/-- C9: an exception other than KeyboardInterrupt — here a transcription
failure — is not caught: the session aborts with a non-zero exit code, the
output file holds only the lines of the iterations completed before the
failure, and the remaining captured segments are never processed (the result
does not depend on `rest`). -/
theorem listen_exception_aborts_session
    (transcribe : String → Except String String) (tmpn : Nat → String)
    (output bad e : String) (done ts rest : List String) (fs : FS)
    (hfor : List.Forall₂ (fun seg t => transcribe seg = .ok t) done ts)
    (hbad : transcribe bad = .error e)
    (hout : ∀ k ≤ done.length, tmpn k ≠ output) :
    (listen_main transcribe tmpn output (done ++ bad :: rest) fs).exitCode = 1 ∧
    ((listen_main transcribe tmpn output (done ++ bad :: rest) fs).fs.read output).getD "" =
      ((fs.read output).getD "") ++ joinLines ts := by
  obtain ⟨h1, h2, _⟩ := listen_loop_err transcribe tmpn output bad e rest hbad done ts 0 fs
    hfor (fun k _ hk2 => hout k (by omega))
  rcases hr : listen_loop transcribe tmpn output (done ++ bad :: rest) 0 fs with ⟨fs', err⟩
  rw [hr] at h1 h2
  simp only at h1
  subst h1
  simp only [listen_main, hr]
  exact ⟨trivial, h2⟩

theorem listen_exception_aborts_session_witness :
    (listen_main (fun s => if s = "bad" then .error "RuntimeError" else .ok "hi")
      (fun i => "tmp" ++ toString i) "out.txt" (["good"] ++ "bad" :: ["later"])
      ⟨[]⟩).exitCode = 1 ∧
    ((listen_main (fun s => if s = "bad" then .error "RuntimeError" else .ok "hi")
      (fun i => "tmp" ++ toString i) "out.txt" (["good"] ++ "bad" :: ["later"])
      ⟨[]⟩).fs.read "out.txt").getD "" =
      ((((⟨[]⟩ : FS)).read "out.txt").getD "") ++ joinLines ["hi"] :=
  listen_exception_aborts_session
    (fun s => if s = "bad" then .error "RuntimeError" else .ok "hi")
    (fun i => "tmp" ++ toString i) "out.txt" "bad" "RuntimeError" ["good"] ["hi"]
    ["later"] ⟨[]⟩ (List.Forall₂.cons rfl List.Forall₂.nil) rfl (by decide)

/-- Control point inside one iteration of `listen_mode`'s loop, following the
statements of src/app.py lines 50-64: blocked on capture, holding a captured
segment in memory, transcribing the temporary file, appending to the output
file, deleting the temporary file; plus the terminal states (interrupted at
the boundary, or aborted by an uncaught exception). -/
inductive Phase where
  | listening
  | captured (seg : String)
  | transcribing (tmp : String)
  | appending (tmp : String) (text : String)
  | removing (tmp : String)
  | stopped
  | crashed (tmp : String) (e : String)
deriving DecidableEq

/-- A machine state of a listen session: current control point, file system,
iteration counter (also indexing the temporary-file name), and the segments
the microphone will still deliver. -/
structure LState where
  phase : Phase
  fs : FS
  idx : Nat
  pending : List String
deriving DecidableEq

/-- One small step of the listen loop.  Each transition performs exactly the
side effect of the corresponding statement in src/app.py. -/
def step (transcribe : String → Except String String) (tmpn : Nat → String)
    (output : String) (s : LState) : LState :=
  match s.phase with
  | .listening =>
    match s.pending with
    | [] => { s with phase := .stopped }
    | seg :: rest => { s with phase := .captured seg, pending := rest }
  | .captured seg =>
    { s with phase := .transcribing (tmpn s.idx), fs := s.fs.writeTrunc (tmpn s.idx) seg }
  | .transcribing tmp =>
    match transcribe ((s.fs.read tmp).getD "") with
    | .error e => { s with phase := .crashed tmp e }
    | .ok text => { s with phase := .appending tmp text }
  | .appending tmp text =>
    { s with phase := .removing tmp, fs := s.fs.append output (text ++ "\n") }
  | .removing tmp =>
    { s with phase := .listening, fs := s.fs.remove tmp, idx := s.idx + 1 }
  | .stopped => s
  | .crashed _ _ => s

/-- Iterating the machine `n` steps. -/
def runSteps (transcribe : String → Except String String) (tmpn : Nat → String)
    (output : String) : Nat → LState → LState
  | 0, s => s
  | n + 1, s => runSteps transcribe tmpn output n (step transcribe tmpn output s)

/-- Initial state of a session delivering the segments `segs` on a file
system `fs`. -/
def initState (segs : List String) (fs : FS) : LState :=
  ⟨.listening, fs, 0, segs⟩

/-- No temporary-file name of the session is present on the file system. -/
def tempClean (tmpn : Nat → String) (n : Nat) (fs : FS) : Prop :=
  ∀ k < n, fs.read (tmpn k) = none

/-- The session invariant: what holds of the file system and bookkeeping at
each control point, for a session over segments `segs` transcribing to `ts`,
with initial output-file contents `c0`. -/
def SessionInv (tmpn : Nat → String) (output : String) (segs ts : List String)
    (c0 : String) (s : LState) : Prop :=
  match s.phase with
  | .listening =>
      s.idx ≤ segs.length ∧ s.pending = segs.drop s.idx ∧
      tempClean tmpn segs.length s.fs ∧
      (s.fs.read output).getD "" = c0 ++ joinLines (ts.take s.idx)
  | .captured seg =>
      s.idx < segs.length ∧ s.pending = segs.drop (s.idx + 1) ∧
      segs[s.idx]? = some seg ∧
      tempClean tmpn segs.length s.fs ∧
      (s.fs.read output).getD "" = c0 ++ joinLines (ts.take s.idx)
  | .transcribing tmp =>
      s.idx < segs.length ∧ s.pending = segs.drop (s.idx + 1) ∧
      tmp = tmpn s.idx ∧ s.fs.read tmp = segs[s.idx]? ∧
      (∀ k < segs.length, k ≠ s.idx → s.fs.read (tmpn k) = none) ∧
      (s.fs.read output).getD "" = c0 ++ joinLines (ts.take s.idx)
  | .appending tmp text =>
      s.idx < segs.length ∧ s.pending = segs.drop (s.idx + 1) ∧
      tmp = tmpn s.idx ∧ s.fs.read tmp = segs[s.idx]? ∧
      ts[s.idx]? = some text ∧
      (∀ k < segs.length, k ≠ s.idx → s.fs.read (tmpn k) = none) ∧
      (s.fs.read output).getD "" = c0 ++ joinLines (ts.take s.idx)
  | .removing tmp =>
      s.idx < segs.length ∧ s.pending = segs.drop (s.idx + 1) ∧
      tmp = tmpn s.idx ∧ s.fs.read tmp = segs[s.idx]? ∧
      (∀ k < segs.length, k ≠ s.idx → s.fs.read (tmpn k) = none) ∧
      (s.fs.read output).getD "" = c0 ++ joinLines (ts.take (s.idx + 1))
  | .stopped =>
      s.idx = segs.length ∧ s.pending = [] ∧
      tempClean tmpn segs.length s.fs ∧
      (s.fs.read output).getD "" = c0 ++ joinLines ts
  | .crashed _ _ => False

theorem joinLines_append (a b : List String) :
    joinLines (a ++ b) = joinLines a ++ joinLines b := by
  induction a with
  | nil => simp [joinLines, String.empty_append]
  | cons t a ih =>
    simp only [List.cons_append, joinLines, List.append_eq, ih, String.append_assoc]

theorem joinLines_take_succ (ts : List String) (n : Nat) (t : String)
    (h : ts[n]? = some t) :
    joinLines (ts.take (n + 1)) = joinLines (ts.take n) ++ (t ++ "\n") := by
  rw [List.take_succ, h, joinLines_append]
  simp [joinLines, String.append_empty, String.append_assoc]

/-- The invariant is preserved by every step of a session whose transcriptions
all succeed (`hfor`), whose temporary-file names are fresh (`hinj`) and
distinct from the output path (`hout`). -/
theorem step_preserves_inv
    (transcribe : String → Except String String) (tmpn : Nat → String)
    (output : String) (segs ts : List String) (c0 : String)
    (hfor : List.Forall₂ (fun seg t => transcribe seg = .ok t) segs ts)
    (hout : ∀ k < segs.length, tmpn k ≠ output)
    (hinj : ∀ j < segs.length, ∀ k < segs.length, tmpn j = tmpn k → j = k)
    (s : LState) (hs : SessionInv tmpn output segs ts c0 s) :
    SessionInv tmpn output segs ts c0 (step transcribe tmpn output s) := by
  obtain ⟨ph, fs, idx, pending⟩ := s
  cases ph with
  | listening =>
    obtain ⟨hle, hpend, hclean, hcontent⟩ := hs
    dsimp only at hle hpend hclean hcontent
    subst hpend
    cases hdrop : segs.drop idx with
    | nil =>
      have hidx : idx = segs.length := by
        have := List.drop_eq_nil_iff.mp hdrop
        omega
      dsimp only [step, SessionInv]
      refine ⟨hidx, rfl, hclean, ?_⟩
      rw [hcontent, hidx, hfor.length_eq, List.take_length ts]
    | cons seg rest =>
      have hidx : idx < segs.length := by
        by_contra hge
        rw [List.drop_eq_nil_iff.mpr (by omega)] at hdrop
        exact List.cons_ne_nil seg rest hdrop.symm
      have h2 := (List.drop_eq_getElem_cons hidx).symm.trans hdrop
      obtain ⟨hseg, hrest⟩ := List.cons.inj h2
      dsimp only [step, SessionInv]
      refine ⟨hidx, hrest.symm, ?_, hclean, hcontent⟩
      rw [List.getElem?_eq_getElem hidx, hseg]
  | captured seg =>
    obtain ⟨hidx, hpend, hseg, hclean, hcontent⟩ := hs
    dsimp only at hidx hpend hseg hclean hcontent
    have houti : tmpn idx ≠ output := hout idx hidx
    dsimp only [step, SessionInv]
    refine ⟨hidx, hpend, rfl, ?_, ?_, ?_⟩
    · rw [FS.read_writeTrunc_self, hseg]
    · intro k hk hkne
      have hne : tmpn k ≠ tmpn idx := fun he => hkne (hinj k hk idx hidx he)
      rw [FS.read_writeTrunc_other _ _ _ _ hne]
      exact hclean k hk
    · rw [FS.read_writeTrunc_other _ _ _ _ (Ne.symm houti)]
      exact hcontent
  | transcribing tmp =>
    obtain ⟨hidx, hpend, htmp, hread, hothers, hcontent⟩ := hs
    dsimp only at hidx hpend htmp hread hothers hcontent
    have hts : idx < ts.length := by rw [← hfor.length_eq]; exact hidx
    have htr : transcribe ((fs.read tmp).getD "") = .ok (ts.get ⟨idx, hts⟩) := by
      rw [hread, List.getElem?_eq_getElem hidx]
      have := (List.forall₂_iff_get.mp hfor).2 idx hidx hts
      simpa using this
    dsimp only [step]
    rw [htr]
    dsimp only [SessionInv]
    refine ⟨hidx, hpend, htmp, hread, ?_, hothers, hcontent⟩
    rw [List.getElem?_eq_getElem hts]
    simp [List.get_eq_getElem]
  | appending tmp text =>
    obtain ⟨hidx, hpend, htmp, hread, htext, hothers, hcontent⟩ := hs
    dsimp only at hidx hpend htmp hread htext hothers hcontent
    have houti : tmpn idx ≠ output := hout idx hidx
    have htmpout : tmp ≠ output := htmp ▸ houti
    dsimp only [step, SessionInv]
    refine ⟨hidx, hpend, htmp, ?_, ?_, ?_⟩
    · rw [FS.read_append_other _ _ _ _ htmpout]
      exact hread
    · intro k hk hkne
      rw [FS.read_append_other _ _ _ _ (hout k hk)]
      exact hothers k hk hkne
    · rw [FS.read_append_self]
      simp only [Option.getD_some]
      rw [hcontent, joinLines_take_succ ts idx text htext, String.append_assoc]
  | removing tmp =>
    obtain ⟨hidx, hpend, htmp, hread, hothers, hcontent⟩ := hs
    dsimp only at hidx hpend htmp hread hothers hcontent
    have houti : tmpn idx ≠ output := hout idx hidx
    have htmpout : tmp ≠ output := htmp ▸ houti
    dsimp only [step, SessionInv]
    refine ⟨by omega, hpend, ?_, ?_⟩
    · intro k hk
      by_cases hki : k = idx
      · rw [hki, ← htmp, FS.read_remove_self]
      · have hne : tmpn k ≠ tmp := fun he => hki (hinj k hk idx hidx (he.trans htmp))
        rw [FS.read_remove_other _ _ _ hne]
        exact hothers k hk hki
    · rw [FS.read_remove_other _ _ _ (Ne.symm htmpout)]
      exact hcontent
  | stopped =>
    exact hs
  | crashed tmp e =>
    exact hs.elim

/-- Every state reached from the initial state of a successful session
satisfies the invariant. -/
theorem runSteps_inv
    (transcribe : String → Except String String) (tmpn : Nat → String)
    (output : String) (segs ts : List String) (fs0 : FS)
    (hfor : List.Forall₂ (fun seg t => transcribe seg = .ok t) segs ts)
    (hout : ∀ k < segs.length, tmpn k ≠ output)
    (hinj : ∀ j < segs.length, ∀ k < segs.length, tmpn j = tmpn k → j = k)
    (htemps0 : tempClean tmpn segs.length fs0) :
    ∀ n, SessionInv tmpn output segs ts ((fs0.read output).getD "")
      (runSteps transcribe tmpn output n (initState segs fs0)) := by
  have hinit : SessionInv tmpn output segs ts ((fs0.read output).getD "")
      (initState segs fs0) := by
    refine ⟨Nat.zero_le _, by simp [initState], htemps0, ?_⟩
    simp [initState, joinLines, String.append_empty]
  have hstep : ∀ n s, SessionInv tmpn output segs ts ((fs0.read output).getD "") s →
      SessionInv tmpn output segs ts ((fs0.read output).getD "")
        (runSteps transcribe tmpn output n s) := by
    intro n
    induction n with
    | zero => intro s hs; exact hs
    | succ n ih =>
      intro s hs
      exact ih _ (step_preserves_inv transcribe tmpn output segs ts _ hfor hout hinj s hs)
  intro n
  exact hstep n _ hinit

/-- How many audio segments the program is holding in memory at a control
point: one between capture and persistence, none elsewhere (the loop variable
`audio` is consumed by the write to the temporary file). -/
def segCount : Phase → Nat
  | .captured _ => 1
  | _ => 0

/-- A duplicate-free list whose members satisfying `p` all equal `j` has at
most one member satisfying `p`. -/
theorem length_filter_le_one_of_unique {l : List Nat} (p : Nat → Bool) (j : Nat)
    (hnd : l.Nodup) (h : ∀ k ∈ l, p k = true → k = j) : (l.filter p).length ≤ 1 := by
  induction l with
  | nil => simp
  | cons a l ih =>
    obtain ⟨ha, hnd'⟩ := List.nodup_cons.mp hnd
    by_cases hp : p a = true
    · have haj : a = j := h a (List.mem_cons_self a l) hp
      have hl : l.filter p = [] := by
        rw [List.filter_eq_nil_iff]
        intro k hk hpk
        have hkj := h k (List.mem_cons_of_mem a hk) (by simpa using hpk)
        rw [hkj, ← haj] at hk
        exact ha hk
      simp [List.filter_cons, hp, hl]
    · have hfa : l.filter p = (a :: l).filter p := by
        simp [List.filter_cons, hp]
      rw [← hfa]
      exact ih hnd' (fun k hk hpk => h k (List.mem_cons_of_mem a hk) hpk)

/-- On a file system clean of session temporaries, no temporary file is
present. -/
theorem filter_temp_of_clean (tmpn : Nat → String) (n : Nat) (fsS : FS)
    (hclean : tempClean tmpn n fsS) :
    ((List.range n).filter (fun k => (fsS.read (tmpn k)).isSome)).length ≤ 1 := by
  have hnil : (List.range n).filter (fun k => (fsS.read (tmpn k)).isSome) = [] := by
    rw [List.filter_eq_nil_iff]
    intro k hk
    rw [hclean k (List.mem_range.mp hk)]
    simp
  simp [hnil]

/-- When every session temporary except possibly the current iteration's is
absent, at most one temporary file is present. -/
theorem filter_temp_of_single (tmpn : Nat → String) (n i : Nat) (fsS : FS)
    (hothers : ∀ k < n, k ≠ i → fsS.read (tmpn k) = none) :
    ((List.range n).filter (fun k => (fsS.read (tmpn k)).isSome)).length ≤ 1 := by
  apply length_filter_le_one_of_unique _ i (List.nodup_range n)
  intro k hk hpk
  by_contra hki
  rw [hothers k (List.mem_range.mp hk) hki] at hpk
  simp at hpk

/-- C8: throughout a successful listen session, at most one temporary audio
file of the session is present on the file system at any time, and the
program holds at most one captured audio segment in memory at any time: each
iteration persists its segment and deletes its temporary file before the next
capture begins, with no overlap between iterations. -/
theorem session_at_most_one_temp_and_segment
    (transcribe : String → Except String String) (tmpn : Nat → String)
    (output : String) (segs ts : List String) (fs0 : FS)
    (hfor : List.Forall₂ (fun seg t => transcribe seg = .ok t) segs ts)
    (hout : ∀ k < segs.length, tmpn k ≠ output)
    (hinj : ∀ j < segs.length, ∀ k < segs.length, tmpn j = tmpn k → j = k)
    (htemps0 : tempClean tmpn segs.length fs0) (n : Nat) :
    ((List.range segs.length).filter
      (fun k => (((runSteps transcribe tmpn output n (initState segs fs0)).fs.read
        (tmpn k)).isSome))).length ≤ 1 ∧
    segCount (runSteps transcribe tmpn output n (initState segs fs0)).phase ≤ 1 := by
  have hinv := runSteps_inv transcribe tmpn output segs ts fs0 hfor hout hinj htemps0 n
  rcases hsv : runSteps transcribe tmpn output n (initState segs fs0) with ⟨ph, fsS, idxS, pendS⟩
  rw [hsv] at hinv
  refine ⟨?_, by cases ph <;> simp [segCount]⟩
  cases ph with
  | listening =>
    obtain ⟨_, _, hclean, _⟩ := hinv
    exact filter_temp_of_clean tmpn segs.length fsS hclean
  | captured seg =>
    obtain ⟨_, _, _, hclean, _⟩ := hinv
    exact filter_temp_of_clean tmpn segs.length fsS hclean
  | transcribing tmp =>
    obtain ⟨_, _, _, _, hothers, _⟩ := hinv
    exact filter_temp_of_single tmpn segs.length idxS fsS hothers
  | appending tmp text =>
    obtain ⟨_, _, _, _, _, hothers, _⟩ := hinv
    exact filter_temp_of_single tmpn segs.length idxS fsS hothers
  | removing tmp =>
    obtain ⟨_, _, _, _, hothers, _⟩ := hinv
    exact filter_temp_of_single tmpn segs.length idxS fsS hothers
  | stopped =>
    obtain ⟨_, _, hclean, _⟩ := hinv
    exact filter_temp_of_clean tmpn segs.length fsS hclean
  | crashed tmp e =>
    exact hinv.elim

theorem session_at_most_one_temp_and_segment_witness :
    ((List.range (["s1", "s2"] : List String).length).filter
      (fun k => (((runSteps (fun _ => Except.ok "hi") (fun i => "tmp" ++ toString i)
        "out.txt" 2 (initState ["s1", "s2"] ⟨[]⟩)).fs.read
        ((fun i => "tmp" ++ toString i) k)).isSome))).length ≤ 1 ∧
    segCount (runSteps (fun _ => Except.ok "hi") (fun i => "tmp" ++ toString i)
      "out.txt" 2 (initState ["s1", "s2"] ⟨[]⟩)).phase ≤ 1 :=
  session_at_most_one_temp_and_segment (fun _ => Except.ok "hi")
    (fun i => "tmp" ++ toString i) "out.txt" ["s1", "s2"] ["hi", "hi"] ⟨[]⟩
    (List.Forall₂.cons rfl (List.Forall₂.cons rfl List.Forall₂.nil))
    (by decide) (by decide) (fun k _ => rfl) 2

/-- Indexing into the lines of a newline-free prefix of the transcriptions. -/
theorem lineList_take_getElem (ts : List String) (hnl : ∀ t ∈ ts, noNewline t)
    (m i : Nat) (him : i < m) :
    (lineList (joinLines (ts.take m)))[i]? = ts[i]? := by
  rw [lineList_joinLines_eq _ (fun t ht => hnl t (List.take_subset m ts ht))]
  exact List.getElem?_take_of_lt him

/-- C10: during a successful listen session on an initially absent output
file with newline-free transcriptions, whenever iteration `i`'s temporary
file has been removed (the iteration counter has passed `i`, and the counter
is incremented exactly by the `os.remove` step, which the loop only reaches
after the append to the output file completed and closed), line `i` of the
output file is the transcription of segment `i`: a temporary file is never
deleted before its line is durably written. -/
theorem temp_removed_implies_line_durable
    (transcribe : String → Except String String) (tmpn : Nat → String)
    (output : String) (segs ts : List String) (fs0 : FS)
    (hfor : List.Forall₂ (fun seg t => transcribe seg = .ok t ∧ noNewline t) segs ts)
    (hout : ∀ k < segs.length, tmpn k ≠ output)
    (hinj : ∀ j < segs.length, ∀ k < segs.length, tmpn j = tmpn k → j = k)
    (htemps0 : tempClean tmpn segs.length fs0)
    (hinit : fs0.read output = none) (n i : Nat)
    (hi : i < (runSteps transcribe tmpn output n (initState segs fs0)).idx) :
    (lineList (((runSteps transcribe tmpn output n (initState segs fs0)).fs.read
      output).getD ""))[i]? = ts[i]? := by
  have hfor' : List.Forall₂ (fun seg t => transcribe seg = .ok t) segs ts :=
    hfor.imp (fun _ _ h => h.1)
  have hnl : ∀ t ∈ ts, noNewline t := forall₂_right_mem (fun _ _ h => h.2) hfor
  have hinv := runSteps_inv transcribe tmpn output segs ts fs0 hfor' hout hinj htemps0 n
  rw [hinit] at hinv
  rcases hsv : runSteps transcribe tmpn output n (initState segs fs0) with ⟨ph, fsS, idxS, pendS⟩
  rw [hsv] at hinv hi
  dsimp only at hi
  cases ph with
  | listening =>
    obtain ⟨_, _, _, hcontent⟩ := hinv
    dsimp only at hcontent
    rw [hcontent]
    simp only [Option.getD_none, String.empty_append]
    exact lineList_take_getElem ts hnl idxS i hi
  | captured seg =>
    obtain ⟨_, _, _, _, hcontent⟩ := hinv
    dsimp only at hcontent
    rw [hcontent]
    simp only [Option.getD_none, String.empty_append]
    exact lineList_take_getElem ts hnl idxS i hi
  | transcribing tmp =>
    obtain ⟨_, _, _, _, _, hcontent⟩ := hinv
    dsimp only at hcontent
    rw [hcontent]
    simp only [Option.getD_none, String.empty_append]
    exact lineList_take_getElem ts hnl idxS i hi
  | appending tmp text =>
    obtain ⟨_, _, _, _, _, _, hcontent⟩ := hinv
    dsimp only at hcontent
    rw [hcontent]
    simp only [Option.getD_none, String.empty_append]
    exact lineList_take_getElem ts hnl idxS i hi
  | removing tmp =>
    obtain ⟨_, _, _, _, _, hcontent⟩ := hinv
    dsimp only at hcontent
    rw [hcontent]
    simp only [Option.getD_none, String.empty_append]
    exact lineList_take_getElem ts hnl (idxS + 1) i (by omega)
  | stopped =>
    obtain ⟨_, _, _, hcontent⟩ := hinv
    dsimp only at hcontent
    rw [hcontent]
    simp only [Option.getD_none, String.empty_append]
    rw [lineList_joinLines_eq ts hnl]
  | crashed tmp e =>
    exact hinv.elim

theorem temp_removed_implies_line_durable_witness :
    (lineList (((runSteps (fun _ => Except.ok "hi") (fun i => "tmp" ++ toString i)
      "out.txt" 5 (initState ["s1"] ⟨[]⟩)).fs.read "out.txt").getD ""))[0]? =
      (["hi"] : List String)[0]? :=
  temp_removed_implies_line_durable (fun _ => Except.ok "hi")
    (fun i => "tmp" ++ toString i) "out.txt" ["s1"] ["hi"] ⟨[]⟩
    (List.Forall₂.cons ⟨rfl, by decide⟩ List.Forall₂.nil)
    (by decide) (by decide) (fun k _ => rfl) rfl 5 0 (by decide)
